import Mathlib

/-!
Verification of the PageRank estimator (`pagerank.py`).

A shallow embedding of the core of the PageRank program: the transition
model, the sampling estimator, and the iterative fixed-point solver.

Modelling choices:
* A Python `dict` keyed by page name is an association list
  `List (String × _)`, whose key order is the dict's insertion order;
  `corpus.keys()` is the list of first components.
* Python floats are embedded as exact rationals `ℚ`.
* A failing computation (a raised `KeyError` / `IndexError`, a choice from
  an empty or ill-formed probability vector) is `none`.
* Randomness is passed explicitly: `random.choice` over a list receives a
  natural-number draw and picks by index modulo the length;
  `numpy.random.choice(keys, p=weights)` receives a rational draw
  `r ∈ [0, 1)` and selects by inverse CDF over the weight list.
* The unbounded `while True` loop of the iterative solver is given explicit
  fuel; running out of fuel is `none`.  Termination for sufficient fuel is
  proved separately.
-/

namespace PageRank

/-- A corpus: each page mapped to the set of pages it links to
(`dict[str, set[str]]`), as an association list in key order. -/
abbrev Corpus := List (String × List String)

/-- A rank/probability dictionary (`dict[str, float]`). -/
abbrev Dist := List (String × ℚ)

/-- The key list `corpus.keys()`. -/
def keys (corpus : Corpus) : List String := corpus.map Prod.fst

/-- Dictionary access `d[p]` for rank dictionaries, defaulting to `0`.
Every dictionary the program builds carries every corpus key, so the
default branch is never exercised on program states. -/
def lookupD (l : Dist) (p : String) : ℚ := (l.lookup p).getD 0

/-- The corpus invariants guaranteed by the crawler (§3 of the design):
distinct keys, and each out-set duplicate-free with every link target
present as a key. -/
def WellFormed (corpus : Corpus) : Prop :=
  (keys corpus).Nodup ∧ ∀ pr ∈ corpus, pr.2.Nodup ∧ pr.2 ⊆ keys corpus

instance (corpus : Corpus) : Decidable (WellFormed corpus) := by
  unfold WellFormed; infer_instance

/-- The function `transition_model(corpus, page, damping_factor)`.

`corpus[page]` is the unguarded dictionary access: a page that is not a
key yields `none` (Python: `KeyError`).  Otherwise the distribution is
built over `corpus.keys()`: with an empty out-set every page gets `1/k`;
otherwise pages get the baseline `(1-d)/k`, plus `d/m` for linked pages.
(`prob_link` is only ever read when the out-set is non-empty, matching the
Python scoping.) -/
def transition_model (corpus : Corpus) (page : String) (damping_factor : ℚ) :
    Option Dist :=
  match corpus.lookup page with
  | none => none
  | some avail =>
    let k : ℚ := ((keys corpus).length : ℚ)
    let prob_page : ℚ := if avail.length = 0 then 1 / k else (1 - damping_factor) / k
    let prob_link : ℚ := damping_factor / (avail.length : ℚ)
    some ((keys corpus).map fun p =>
      if p ∈ avail then (p, prob_page + prob_link) else (p, prob_page))

/-- Model of `random.choice(l)`: it fails on an empty list, otherwise picks the element
at the supplied pseudo-random index (mod the length). -/
def randChoice (l : List String) (r : ℕ) : Option String :=
  if h : l.length = 0 then none
  else some (l.get ⟨r % l.length, Nat.mod_lt _ (Nat.pos_of_ne_zero h)⟩)

/-- Model of `numpy.random.choice(list(probs.keys()), p=list(probs.values()))`:
inverse-CDF selection over the weight list with a draw `r`.  A draw at or
beyond the total weight fails (as numpy rejects a `p` that does not sum
to 1). -/
def weightedChoice (l : Dist) (r : ℚ) : Option String :=
  match l with
  | [] => none
  | (p, w) :: rest => if r < w then some p else weightedChoice rest (r - w)

/-- The sampling loop of `sample_pagerank`: starting from `page`, perform
`steps` transitions, consuming draws `rs i`, `rs (i+1)`, ….  Returns the
full visited sequence (current page first), mirroring the Python list
`sample` to which each `next_page` is appended. -/
def walk (corpus : Corpus) (damping_factor : ℚ) (rs : ℕ → ℚ) :
    ℕ → ℕ → String → Option (List String)
  | 0, _, page => some [page]
  | steps + 1, i, page =>
    match transition_model corpus page damping_factor with
    | none => none
    | some probabilities =>
      match weightedChoice probabilities (rs i) with
      | none => none
      | some next_page =>
        (walk corpus damping_factor rs steps (i + 1) next_page).map (page :: ·)

/-- The function `sample_pagerank(corpus, damping_factor, n)`.

`n` is a Python `int` (possibly non-positive): `for i in range(n)` performs
`n.toNat` iterations.  `r0` drives the initial `random.choice`, `rs` the
weighted draws.  The result maps each corpus key to
`sample.count(page) / len(sample)`. -/
def sample_pagerank (corpus : Corpus) (damping_factor : ℚ) (n : ℤ)
    (r0 : ℕ) (rs : ℕ → ℚ) : Option Dist :=
  match randChoice (keys corpus) r0 with
  | none => none
  | some start =>
    match walk corpus damping_factor rs n.toNat 0 start with
    | none => none
    | some sample =>
      some ((keys corpus).map fun page =>
        (page, (sample.count page : ℚ) / (sample.length : ℚ)))

/-- The initial rank dictionary of `iterate_pagerank`: every page starts at
`1/len(corpus.keys())`. -/
def initRank (corpus : Corpus) : Dist :=
  (keys corpus).map fun page => (page, 1 / ((keys corpus).length : ℚ))

/-- The reassignment `if len(page_links) == 0: page_links = corpus.keys()`
inside the round of `iterate_pagerank`: a page with no outgoing links is
treated as linking to every page, itself included. -/
def pageLinks (corpus : Corpus) (links : List String) : List String :=
  if links.length = 0 then keys corpus else links

/-- One page's update inside the round of `iterate_pagerank`:
`prob_1 + damping_factor * prob_2`, where `prob_2` sums, over every corpus
entry `(prev_page, page_links)` — with `page_links` adjusted by
`pageLinks` — the contribution `prev_rank[prev_page] / len(page_links)`
whenever `page ∈ page_links`. -/
def newRank (corpus : Corpus) (damping_factor : ℚ) (prev_rank : Dist)
    (page : String) : ℚ :=
  (1 - damping_factor) / ((keys corpus).length : ℚ) +
    damping_factor * (corpus.map fun qe =>
      if page ∈ pageLinks corpus qe.2 then
        lookupD prev_rank qe.1 / ((pageLinks corpus qe.2).length : ℚ)
      else 0).sum

/-- One full round of the solver: every page's rank recomputed from
`prev_rank` only (the Python round writes `pagerank[page]` but reads
exclusively `prev_rank`, so the update is synchronous). -/
def pagerankRound (corpus : Corpus) (damping_factor : ℚ) (prev_rank : Dist) :
    Dist :=
  (keys corpus).map fun page => (page, newRank corpus damping_factor prev_rank page)

/-- The convergence test of `iterate_pagerank`: for every page of
`prev_rank`, `abs(prev_rank[page] - pagerank[page]) < 0.001`; the loop
exits when all flags are set. -/
def converged (prev_rank pagerank : Dist) : Bool :=
  prev_rank.all fun pv => decide (|pv.2 - lookupD pagerank pv.1| < 1 / 1000)

/-- The `while True` loop of `iterate_pagerank`, with fuel.  Each pass
computes the round from `prev_rank`, returns it if converged, and otherwise
continues with it as the new `prev_rank`. -/
def iterate_aux (corpus : Corpus) (damping_factor : ℚ) :
    ℕ → Dist → Option Dist
  | 0, _ => none
  | fuel + 1, prev_rank =>
    let pagerank := pagerankRound corpus damping_factor prev_rank
    if converged prev_rank pagerank then some pagerank
    else iterate_aux corpus damping_factor fuel pagerank

/-- The function `iterate_pagerank(corpus, damping_factor)` with explicit fuel. -/
def iterate_pagerank (corpus : Corpus) (damping_factor : ℚ) (fuel : ℕ) :
    Option Dist :=
  iterate_aux corpus damping_factor fuel (initRank corpus)

/-- The §3 Distribution invariant, relative to a corpus: exactly one entry
per corpus key (in key order), non-negative values, total mass `1`. -/
def IsDistOver (corpus : Corpus) (l : Dist) : Prop :=
  l.map Prod.fst = keys corpus ∧ (∀ pr ∈ l, 0 ≤ pr.2) ∧ (l.map Prod.snd).sum = 1

/-- The out-set used by the §4.3 update rule: a page's links, except that a
page with no outgoing links is treated as linking to every page. -/
def outSet (corpus : Corpus) (q : String) : List String :=
  pageLinks corpus ((corpus.lookup q).getD [])

/-- The §4.3 update rule as the specification states it:
`rank(p) = (1-d)/k + d * Σ over q with p in q's out-set of
rank_prev(q) / |out-set(q)|`, the sum taken over the pages of the graph. -/
def specNewRank (corpus : Corpus) (d : ℚ) (prev : Dist) (p : String) : ℚ :=
  (1 - d) / ((keys corpus).length : ℚ) +
    d * ((keys corpus).map fun q =>
      if p ∈ outSet corpus q then lookupD prev q / ((outSet corpus q).length : ℚ)
      else 0).sum

/-- L1 distance between two rank dictionaries, measured over the corpus
keys. -/
def l1dist (corpus : Corpus) (u v : Dist) : ℚ :=
  ((keys corpus).map fun p => |lookupD u p - lookupD v p|).sum

/-! ### Generic list-sum helpers -/

theorem sum_map_add {α : Type} (l : List α) (f g : α → ℚ) :
    (l.map fun x => f x + g x).sum = (l.map f).sum + (l.map g).sum := by
  induction l with
  | nil => simp
  | cons a t ih => simp [ih]; ring

theorem sum_map_sub {α : Type} (l : List α) (f g : α → ℚ) :
    (l.map fun x => f x - g x).sum = (l.map f).sum - (l.map g).sum := by
  induction l with
  | nil => simp
  | cons a t ih => simp [ih]; ring

theorem sum_map_const {α : Type} (l : List α) (c : ℚ) :
    (l.map fun _ => c).sum = (l.length : ℚ) * c := by
  induction l with
  | nil => simp
  | cons a t ih => simp [ih]; ring

theorem sum_map_swap {α β : Type} (l₁ : List α) (l₂ : List β) (f : α → β → ℚ) :
    (l₁.map fun a => (l₂.map fun b => f a b).sum).sum =
      (l₂.map fun b => (l₁.map fun a => f a b).sum).sum := by
  induction l₁ with
  | nil => simp [sum_map_const]
  | cons a t ih => simp only [List.map_cons, List.sum_cons, sum_map_add, ih]

theorem abs_list_sum_le (l : List ℚ) : |l.sum| ≤ (l.map fun x => |x|).sum := by
  induction l with
  | nil => simp
  | cons a t ih =>
    simp only [List.sum_cons, List.map_cons]
    exact (abs_add _ _).trans (by gcongr)

theorem sum_if_eq_of_mem (l : List String) (x : String) (w : ℚ)
    (hl : l.Nodup) (hx : x ∈ l) :
    (l.map fun p => if p = x then w else 0).sum = w := by
  induction l with
  | nil => simp at hx
  | cons a t ih =>
    rcases List.mem_cons.mp hx with rfl | hx'
    · have hax : x ∉ t := (List.nodup_cons.mp hl).1
      have : ∀ p ∈ t, (if p = x then w else 0) = 0 := by
        intro p hp
        have : p ≠ x := fun h => hax (h ▸ hp)
        simp [this]
      simp [List.map_congr_left this, sum_map_const]
    · have hax : a ≠ x := by
        rintro rfl; exact (List.nodup_cons.mp hl).1 hx'
      simp only [List.map_cons, List.sum_cons, if_neg hax]
      rw [ih (List.nodup_cons.mp hl).2 hx']
      ring

theorem sum_if_mem (ks pl : List String) (w : ℚ)
    (hk : ks.Nodup) (hpl : pl.Nodup) (hsub : pl ⊆ ks) :
    (ks.map fun p => if p ∈ pl then w else 0).sum = (pl.length : ℚ) * w := by
  induction pl with
  | nil => simp [sum_map_const]
  | cons x t ih =>
    have hxt : x ∉ t := (List.nodup_cons.mp hpl).1
    have hsplit : ∀ p ∈ ks, (if p ∈ x :: t then w else 0) =
        (if p = x then w else 0) + (if p ∈ t then w else 0) := by
      intro p _
      by_cases hpx : p = x
      · subst hpx; simp [hxt]
      · by_cases hpt : p ∈ t <;> simp [hpx, hpt]
    rw [List.map_congr_left hsplit, sum_map_add,
      sum_if_eq_of_mem ks x w hk (hsub (List.mem_cons_self x t)),
      ih (List.nodup_cons.mp hpl).2 (fun a ha => hsub (List.mem_cons_of_mem x ha))]
    simp only [List.length_cons]
    push_cast
    ring

/-! ### Association-list lookup helpers -/

theorem lookup_map_keys (l : List String) (f : String → ℚ) (p : String)
    (hp : p ∈ l) :
    ((l.map fun q => (q, f q)).lookup p) = some (f p) := by
  induction l with
  | nil => simp at hp
  | cons a t ih =>
    rcases List.mem_cons.mp hp with rfl | hp'
    · simp [List.lookup_cons]
    · by_cases hpa : p = a
      · subst hpa; simp [List.lookup_cons]
      · have hb : (p == a) = false := by simpa using hpa
        simp only [List.map_cons, List.lookup_cons, hb]
        exact ih hp'

theorem lookupD_map_keys (l : List String) (f : String → ℚ) (p : String)
    (hp : p ∈ l) :
    lookupD (l.map fun q => (q, f q)) p = f p := by
  simp [lookupD, lookup_map_keys l f p hp]

theorem lookup_mem {β : Type} {l : List (String × β)} {p : String} {v : β}
    (h : l.lookup p = some v) : (p, v) ∈ l := by
  rcases List.lookup_eq_some_iff.mp h with ⟨l₁, l₂, rfl, -⟩
  simp

theorem lookupD_nonneg {l : Dist} (h : ∀ pr ∈ l, 0 ≤ pr.2) (p : String) :
    0 ≤ lookupD l p := by
  unfold lookupD
  cases hl : l.lookup p with
  | none => simp
  | some v => simpa using h _ (lookup_mem hl)

theorem exists_lookup_of_mem_keys {corpus : Corpus} {p : String}
    (hp : p ∈ keys corpus) :
    ∃ links, corpus.lookup p = some links ∧ (p, links) ∈ corpus := by
  have : (corpus.lookup p).isSome := by
    rw [List.lookup_isSome_iff]
    rcases List.mem_map.mp hp with ⟨pr, hpr, rfl⟩
    exact ⟨pr, hpr, by simp⟩
  rcases Option.isSome_iff_exists.mp this with ⟨links, hl⟩
  exact ⟨links, hl, lookup_mem hl⟩

theorem lookup_eq_snd {l : Dist} (hnd : (l.map Prod.fst).Nodup)
    {pr : String × ℚ} (hpr : pr ∈ l) : l.lookup pr.1 = some pr.2 := by
  induction l with
  | nil => simp at hpr
  | cons a t ih =>
    obtain ⟨a1, a2⟩ := a
    simp only [List.map_cons] at hnd
    rcases List.mem_cons.mp hpr with rfl | hpr'
    · simp [List.lookup_cons]
    · have ha1 : a1 ∉ t.map Prod.fst := (List.nodup_cons.mp hnd).1
      have hne : pr.1 ≠ a1 := by
        rintro h
        exact ha1 (h ▸ List.mem_map.mpr ⟨pr, hpr', rfl⟩)
      have hb : (pr.1 == a1) = false := by simpa using hne
      simp only [List.lookup_cons, hb]
      exact ih (List.nodup_cons.mp hnd).2 hpr'

theorem lookupD_eq_snd {l : Dist} (hnd : (l.map Prod.fst).Nodup)
    {pr : String × ℚ} (hpr : pr ∈ l) : lookupD l pr.1 = pr.2 := by
  simp [lookupD, lookup_eq_snd hnd hpr]

theorem lookup_eq_none_of_not_mem {corpus : Corpus} {p : String}
    (hp : p ∉ keys corpus) : corpus.lookup p = none := by
  rw [List.lookup_eq_none_iff]
  intro pr hpr
  simpa using fun h : p = pr.1 => hp (h ▸ List.mem_map.mpr ⟨pr, hpr, rfl⟩)

theorem map_fst_map_keys (l : List String) (f : String → ℚ) :
    ((l.map fun q => (q, f q)).map Prod.fst) = l := by
  simp [List.map_map, Function.comp_def]

/-! ### Transition model -/

theorem transition_model_eq {corpus : Corpus} {page : String}
    {avail : List String} (d : ℚ) (h : corpus.lookup page = some avail) :
    transition_model corpus page d = some ((keys corpus).map fun p =>
      (p, if avail.length = 0 then 1 / ((keys corpus).length : ℚ)
          else if p ∈ avail then
            (1 - d) / ((keys corpus).length : ℚ) + d / (avail.length : ℚ)
          else (1 - d) / ((keys corpus).length : ℚ))) := by
  simp only [transition_model, h]
  congr 1
  apply List.map_congr_left
  intro p _
  by_cases hav : avail.length = 0
  · have hnil : avail = [] := List.length_eq_zero.mp hav
    subst hnil
    simp
  · by_cases hpav : p ∈ avail <;> simp [hav, hpav]

theorem keys_length_pos {corpus : Corpus} {page : String}
    (hp : page ∈ keys corpus) : 0 < (keys corpus).length :=
  List.length_pos.mpr (List.ne_nil_of_mem hp)

theorem tm_isDist {corpus : Corpus} {page : String} {d : ℚ}
    (hwf : WellFormed corpus) (hp : page ∈ keys corpus)
    (hd0 : 0 ≤ d) (hd1 : d ≤ 1) :
    ∃ probs, transition_model corpus page d = some probs ∧
      IsDistOver corpus probs := by
  obtain ⟨avail, hl, hmem⟩ := exists_lookup_of_mem_keys hp
  have hk : ((keys corpus).length : ℚ) ≠ 0 := by
    exact_mod_cast Nat.pos_iff_ne_zero.mp (keys_length_pos hp)
  refine ⟨_, transition_model_eq d hl, map_fst_map_keys _ _, ?_, ?_⟩
  · intro pr hpr
    rcases List.mem_map.mp hpr with ⟨p, -, rfl⟩
    by_cases hav : avail.length = 0
    · have h1 : (0:ℚ) ≤ 1 / ((keys corpus).length : ℚ) := by positivity
      simpa [hav] using h1
    · by_cases hpav : p ∈ avail
      · simp only [hav, hpav, if_false, if_true]
        have h1 : (0:ℚ) ≤ (1 - d) / ((keys corpus).length : ℚ) := by
          apply div_nonneg (by linarith) (by positivity)
        have h2 : (0:ℚ) ≤ d / (avail.length : ℚ) := by positivity
        simpa using add_nonneg h1 h2
      · simp only [hav, hpav, if_false]
        simpa using div_nonneg (by linarith : (0:ℚ) ≤ 1 - d) (by positivity)
  · rw [List.map_map]
    have hsnd : (Prod.snd ∘ fun p => (p,
        if avail.length = 0 then 1 / ((keys corpus).length : ℚ)
        else if p ∈ avail then
          (1 - d) / ((keys corpus).length : ℚ) + d / (avail.length : ℚ)
        else (1 - d) / ((keys corpus).length : ℚ))) = fun p =>
        if avail.length = 0 then 1 / ((keys corpus).length : ℚ)
        else if p ∈ avail then
          (1 - d) / ((keys corpus).length : ℚ) + d / (avail.length : ℚ)
        else (1 - d) / ((keys corpus).length : ℚ) := rfl
    rw [hsnd]
    by_cases hav : avail.length = 0
    · simp only [hav, if_true]
      rw [sum_map_const]
      field_simp
    · have hm : ((avail.length : ℚ)) ≠ 0 := by
        exact_mod_cast hav
      simp only [hav, if_false]
      have hsplit : ∀ p ∈ keys corpus,
          (if p ∈ avail then
            (1 - d) / ((keys corpus).length : ℚ) + d / (avail.length : ℚ)
          else (1 - d) / ((keys corpus).length : ℚ)) =
          (1 - d) / ((keys corpus).length : ℚ) +
            (if p ∈ avail then d / (avail.length : ℚ) else 0) := by
        intro p _
        by_cases hpav : p ∈ avail <;> simp [hpav]
      rw [List.map_congr_left hsplit, sum_map_add, sum_map_const,
        sum_if_mem _ _ _ hwf.1 (hwf.2 _ hmem).1 (hwf.2 _ hmem).2]
      field_simp

/-- Claim C1: for a page that is a key of the corpus, `transition_model`
returns one entry per corpus key; with an empty out-set every page gets
`1/k`, otherwise out-set pages get `(1-d)/k + d/m` and the rest exactly
`(1-d)/k`. -/
theorem transition_model_entries (corpus : Corpus) (page : String) (d : ℚ)
    (avail : List String) (h : corpus.lookup page = some avail) :
    ∃ probs, transition_model corpus page d = some probs ∧
      probs.map Prod.fst = keys corpus ∧
      ∀ p ∈ keys corpus, probs.lookup p =
        some (if avail = [] then 1 / ((keys corpus).length : ℚ)
          else if p ∈ avail then
            (1 - d) / ((keys corpus).length : ℚ) + d / (avail.length : ℚ)
          else (1 - d) / ((keys corpus).length : ℚ)) := by
  refine ⟨_, transition_model_eq d h, map_fst_map_keys _ _, ?_⟩
  intro p hp
  rw [lookup_map_keys _ _ p hp]
  congr 1
  by_cases hav : avail = []
  · simp [hav]
  · have hlen : avail.length ≠ 0 := by simpa [List.length_eq_zero] using hav
    simp [hav, hlen]

/-- Witness for C1: the two-page corpus `a ↔ b`, current page `a`. -/
theorem transition_model_entries_witness :
    ∃ probs, transition_model [("a", ["b"]), ("b", ["a"])] "a" (85/100) =
        some probs ∧
      probs.map Prod.fst = keys [("a", ["b"]), ("b", ["a"])] ∧
      ∀ p ∈ keys [("a", ["b"]), ("b", ["a"])], probs.lookup p =
        some (if (["b"] : List String) = [] then
            1 / ((keys [("a", ["b"]), ("b", ["a"])]).length : ℚ)
          else if p ∈ (["b"] : List String) then
            (1 - 85/100) / ((keys [("a", ["b"]), ("b", ["a"])]).length : ℚ) +
              (85/100) / ((["b"] : List String).length : ℚ)
          else (1 - 85/100) / ((keys [("a", ["b"]), ("b", ["a"])]).length : ℚ)) :=
  transition_model_entries [("a", ["b"]), ("b", ["a"])] "a" (85/100) ["b"]
    (by decide)

/-- Claim C6: for a well-formed non-empty corpus, a page that is a key, and
`d ∈ (0,1)`, the transition distribution has non-negative values summing
exactly to `1` over `ℚ`. -/
theorem transition_model_sums_to_one (corpus : Corpus) (page : String)
    (d : ℚ) (hwf : WellFormed corpus) (hne : corpus ≠ [])
    (hp : page ∈ keys corpus) (hd0 : 0 < d) (hd1 : d < 1) :
    ∃ probs, transition_model corpus page d = some probs ∧
      (∀ pr ∈ probs, 0 ≤ pr.2) ∧ (probs.map Prod.snd).sum = 1 := by
  obtain ⟨probs, h1, -, h3, h4⟩ := tm_isDist hwf hp (le_of_lt hd0) (le_of_lt hd1)
  exact ⟨probs, h1, h3, h4⟩

/-- Witness for C6: the two-page corpus `a ↔ b`, current page `a`,
`d = 0.85`. -/
theorem transition_model_sums_to_one_witness :
    ∃ probs, transition_model [("a", ["b"]), ("b", ["a"])] "a" (85/100) =
        some probs ∧
      (∀ pr ∈ probs, 0 ≤ pr.2) ∧ (probs.map Prod.snd).sum = 1 :=
  transition_model_sums_to_one [("a", ["b"]), ("b", ["a"])] "a" (85/100)
    (by decide) (by decide) (by decide) (by norm_num) (by norm_num)

/-- Claim C10: for a page that is not a corpus key, `transition_model` fails
(the unguarded `corpus[page]` access) rather than returning a
distribution. -/
theorem transition_model_key_error (corpus : Corpus) (page : String) (d : ℚ)
    (hp : page ∉ keys corpus) : transition_model corpus page d = none := by
  unfold transition_model
  rw [lookup_eq_none_of_not_mem hp]

/-- Witness for C10: page `c` is not a key of the corpus `a ↔ b`. -/
theorem transition_model_key_error_witness :
    transition_model [("a", ["b"]), ("b", ["a"])] "c" (85/100) = none :=
  transition_model_key_error [("a", ["b"]), ("b", ["a"])] "c" (85/100)
    (by decide)

/-! ### Sampling estimator -/

theorem keys_ne_nil {corpus : Corpus} (hne : corpus ≠ []) :
    keys corpus ≠ [] := by
  simpa [keys] using hne

theorem randChoice_mem {l : List String} (r : ℕ) (hl : l ≠ []) :
    ∃ p, randChoice l r = some p ∧ p ∈ l := by
  unfold randChoice
  have h : l.length ≠ 0 := by simpa [List.length_eq_zero] using hl
  rw [dif_neg h]
  exact ⟨_, rfl, List.get_mem _ _ _⟩

theorem weightedChoice_isSome (l : Dist) (r : ℚ) (h0 : 0 ≤ r)
    (hr : r < (l.map Prod.snd).sum) :
    ∃ p, weightedChoice l r = some p ∧ p ∈ l.map Prod.fst := by
  induction l generalizing r with
  | nil =>
    simp only [List.map_nil, List.sum_nil] at hr
    linarith
  | cons a t ih =>
    obtain ⟨p, w⟩ := a
    by_cases hrw : r < w
    · exact ⟨p, by simp [weightedChoice, hrw], by simp⟩
    · push_neg at hrw
      have hr' : r - w < (t.map Prod.snd).sum := by
        simp only [List.map_cons, List.sum_cons] at hr
        linarith
      obtain ⟨q, hq, hqm⟩ := ih (r - w) (by linarith) hr'
      exact ⟨q, by simp [weightedChoice, not_lt.mpr hrw, hq],
        List.mem_cons_of_mem _ hqm⟩

theorem walk_isSome {corpus : Corpus} {d : ℚ} {rs : ℕ → ℚ}
    (hwf : WellFormed corpus) (hd0 : 0 ≤ d) (hd1 : d ≤ 1)
    (hrs : ∀ i, 0 ≤ rs i ∧ rs i < 1) :
    ∀ (steps i : ℕ) (page : String), page ∈ keys corpus →
      ∃ s, walk corpus d rs steps i page = some s ∧
        s.length = steps + 1 ∧ s.head? = some page ∧
        ∀ x ∈ s, x ∈ keys corpus := by
  intro steps
  induction steps with
  | zero =>
    intro i page hp
    exact ⟨[page], rfl, rfl, rfl, by simpa using hp⟩
  | succ m ih =>
    intro i page hp
    obtain ⟨probs, hprobs, hfst, -, hsum⟩ := tm_isDist hwf hp hd0 hd1
    obtain ⟨nxt, hnxt, hnxtm⟩ := weightedChoice_isSome probs (rs i) (hrs i).1
      (by rw [hsum]; exact (hrs i).2)
    have hnk : nxt ∈ keys corpus := hfst ▸ hnxtm
    obtain ⟨s, hs, hslen, -, hsmem⟩ := ih (i + 1) nxt hnk
    refine ⟨page :: s, ?_, by simp [hslen], rfl, ?_⟩
    · simp [walk, hprobs, hnxt, hs]
    · intro x hx
      rcases List.mem_cons.mp hx with rfl | hx'
      · exact hp
      · exact hsmem x hx'

theorem sum_count_eq_length (ks : List String) (hk : ks.Nodup) :
    ∀ sample : List String, (∀ x ∈ sample, x ∈ ks) →
      (ks.map fun p => ((sample.count p : ℕ) : ℚ)).sum = (sample.length : ℚ) := by
  intro sample
  induction sample with
  | nil => intro _; simp [sum_map_const]
  | cons x s ih =>
    intro hmem
    have hxk : x ∈ ks := hmem x (List.mem_cons_self x s)
    have hpoint : ∀ p ∈ ks, (((x :: s).count p : ℕ) : ℚ) =
        ((s.count p : ℕ) : ℚ) + (if p = x then (1:ℚ) else 0) := by
      intro p _
      rw [List.count_cons]
      by_cases hpx : p = x
      · subst hpx; simp
      · have hb : (x == p) = false := by simpa using Ne.symm hpx
        simp [hb, hpx]
    rw [List.map_congr_left hpoint, sum_map_add,
      ih (fun y hy => hmem y (List.mem_cons_of_mem x hy)),
      sum_if_eq_of_mem ks x 1 hk hxk]
    simp only [List.length_cons]
    push_cast
    ring

/-- Claim C4 (amended): `sample_pagerank` fails on the empty corpus (the
initial uniform choice has nothing to choose from), but it does not
validate the sample count: for `n ≤ 0` on a non-empty corpus the loop body
runs zero times and a result is returned from the one-element sample. -/
theorem sample_pagerank_failure (d : ℚ) (n : ℤ) (r0 : ℕ) (rs : ℕ → ℚ) :
    sample_pagerank [] d n r0 rs = none ∧
    ∀ corpus : Corpus, corpus ≠ [] → n ≤ 0 →
      ∃ res, sample_pagerank corpus d n r0 rs = some res := by
  constructor
  · rfl
  · intro corpus hne hn
    obtain ⟨start, hstart, -⟩ := randChoice_mem r0 (keys_ne_nil hne)
    have htn : n.toNat = 0 := Int.toNat_of_nonpos hn
    refine ⟨(keys corpus).map fun page =>
      (page, (([start].count page : ℚ)) / (([start].length : ℕ) : ℚ)), ?_⟩
    simp only [sample_pagerank, hstart, htn, walk]

/-- Witness for C4 (amended), at the one-page corpus with `n = -3`. -/
theorem sample_pagerank_failure_witness :
    sample_pagerank [] (85/100) (-3) 0 (fun _ => 0) = none ∧
    ∃ res, sample_pagerank [("1", [])] (85/100) (-3) 0 (fun _ => 0) =
      some res :=
  ⟨(sample_pagerank_failure (85/100) (-3) 0 (fun _ => 0)).1,
    (sample_pagerank_failure (85/100) (-3) 0 (fun _ => 0)).2
      [("1", [])] (by decide) (by norm_num)⟩

/-- Counterexample to C4 as stated: with the one-page corpus and sample
count `n = 0 ≤ 0`, `sample_pagerank` returns a distribution instead of
failing. -/
theorem sample_pagerank_nonpositive_n_counterexample :
    sample_pagerank [("1", [])] (85/100) 0 0 (fun _ => 0) ≠ none := by
  decide

/-- Claim C5: for a well-formed non-empty corpus and `n > 0`, the sampler
visits a sequence of `n + 1` corpus pages (a chosen start plus `n`
weighted transitions) and returns one entry per corpus key valued
`count/(n+1)`; the result is a distribution (non-negative, total mass 1). -/
theorem sample_pagerank_spec (corpus : Corpus) (d : ℚ) (n : ℤ) (r0 : ℕ)
    (rs : ℕ → ℚ) (hwf : WellFormed corpus) (hne : corpus ≠ []) (hn : 0 < n)
    (hd0 : 0 ≤ d) (hd1 : d ≤ 1) (hrs : ∀ i, 0 ≤ rs i ∧ rs i < 1) :
    ∃ start sample, randChoice (keys corpus) r0 = some start ∧
      start ∈ keys corpus ∧
      walk corpus d rs n.toNat 0 start = some sample ∧
      (sample.length : ℤ) = n + 1 ∧ sample.head? = some start ∧
      (∀ x ∈ sample, x ∈ keys corpus) ∧
      sample_pagerank corpus d n r0 rs = some ((keys corpus).map fun page =>
        (page, (sample.count page : ℚ) / (sample.length : ℚ))) ∧
      IsDistOver corpus ((keys corpus).map fun page =>
        (page, (sample.count page : ℚ) / (sample.length : ℚ))) := by
  obtain ⟨start, hstart, hsmem⟩ := randChoice_mem r0 (keys_ne_nil hne)
  obtain ⟨sample, hw, hlen, hhead, hmem⟩ :=
    walk_isSome hwf hd0 hd1 hrs n.toNat 0 start hsmem
  have hlen' : (sample.length : ℤ) = n + 1 := by
    rw [hlen]
    push_cast [Int.toNat_of_nonneg (le_of_lt hn)]
    ring
  have hL : ((sample.length : ℕ) : ℚ) ≠ 0 := by
    rw [hlen]
    exact Nat.cast_ne_zero.mpr (Nat.succ_ne_zero n.toNat)
  have hresult : sample_pagerank corpus d n r0 rs =
      some ((keys corpus).map fun page =>
        (page, (sample.count page : ℚ) / (sample.length : ℚ))) := by
    simp only [sample_pagerank, hstart, hw]
  refine ⟨start, sample, hstart, hsmem, hw, hlen', hhead, hmem, hresult,
    map_fst_map_keys _ _, ?_, ?_⟩
  · intro pr hpr
    rcases List.mem_map.mp hpr with ⟨p, -, rfl⟩
    exact div_nonneg (by positivity) (by positivity)
  · rw [List.map_map]
    have hcomp : (Prod.snd ∘ fun page =>
        (page, (sample.count page : ℚ) / (sample.length : ℚ))) = fun page =>
        ((sample.count page : ℕ) : ℚ) * ((sample.length : ℚ))⁻¹ := by
      funext page
      simp [div_eq_mul_inv]
    rw [hcomp, List.sum_map_mul_right, sum_count_eq_length _ hwf.1 sample hmem,
      mul_inv_cancel₀ hL]

/-- Witness for C5: the two-page corpus `a ↔ b`, `n = 2`, all random draws
zero. -/
theorem sample_pagerank_spec_witness :
    ∃ start sample,
      randChoice (keys [("a", ["b"]), ("b", ["a"])]) 0 = some start ∧
      start ∈ keys [("a", ["b"]), ("b", ["a"])] ∧
      walk [("a", ["b"]), ("b", ["a"])] (85/100) (fun _ => 0) (2:ℤ).toNat 0
        start = some sample ∧
      (sample.length : ℤ) = 2 + 1 ∧ sample.head? = some start ∧
      (∀ x ∈ sample, x ∈ keys [("a", ["b"]), ("b", ["a"])]) ∧
      sample_pagerank [("a", ["b"]), ("b", ["a"])] (85/100) 2 0 (fun _ => 0) =
        some ((keys [("a", ["b"]), ("b", ["a"])]).map fun page =>
          (page, (sample.count page : ℚ) / (sample.length : ℚ))) ∧
      IsDistOver [("a", ["b"]), ("b", ["a"])]
        ((keys [("a", ["b"]), ("b", ["a"])]).map fun page =>
          (page, (sample.count page : ℚ) / (sample.length : ℚ))) :=
  sample_pagerank_spec [("a", ["b"]), ("b", ["a"])] (85/100) 2 0 (fun _ => 0)
    (by decide) (by decide) (by norm_num) (by norm_num) (by norm_num)
    (fun i => ⟨le_refl 0, by norm_num⟩)

/-! ### Iterative solver: structure of a round -/

theorem pagerankRound_fst (corpus : Corpus) (d : ℚ) (prev : Dist) :
    (pagerankRound corpus d prev).map Prod.fst = keys corpus :=
  map_fst_map_keys _ _

theorem lookupD_pagerankRound {corpus : Corpus} {p : String} (d : ℚ)
    (prev : Dist) (hp : p ∈ keys corpus) :
    lookupD (pagerankRound corpus d prev) p = newRank corpus d prev p :=
  lookupD_map_keys _ _ p hp

theorem initRank_fst (corpus : Corpus) :
    (initRank corpus).map Prod.fst = keys corpus :=
  map_fst_map_keys _ _

theorem iterate_aux_step (corpus : Corpus) (d : ℚ) (fuel : ℕ) (prev : Dist) :
    iterate_aux corpus d (fuel + 1) prev =
      if converged prev (pagerankRound corpus d prev) then
        some (pagerankRound corpus d prev)
      else iterate_aux corpus d fuel (pagerankRound corpus d prev) := rfl

theorem converged_iff {corpus : Corpus} {prev : Dist} (cur : Dist)
    (hnd : (keys corpus).Nodup) (hprev : prev.map Prod.fst = keys corpus) :
    converged prev cur = true ↔
      ∀ p ∈ keys corpus, |lookupD prev p - lookupD cur p| < 1 / 1000 := by
  unfold converged
  rw [List.all_eq_true]
  constructor
  · intro h p hp
    have hp' : p ∈ prev.map Prod.fst := hprev ▸ hp
    have : (prev.lookup p).isSome := by
      rw [List.lookup_isSome_iff]
      rcases List.mem_map.mp hp' with ⟨pr, hpr, rfl⟩
      exact ⟨pr, hpr, by simp⟩
    rcases Option.isSome_iff_exists.mp this with ⟨v, hv⟩
    have hvp : lookupD prev p = v := by simp [lookupD, hv]
    have := of_decide_eq_true (h _ (lookup_mem hv))
    rwa [hvp]
  · intro h pv hpv
    have hnd' : (prev.map Prod.fst).Nodup := by rw [hprev]; exact hnd
    have hk : pv.1 ∈ keys corpus := hprev ▸ List.mem_map.mpr ⟨pv, hpv, rfl⟩
    have := h pv.1 hk
    rw [lookupD_eq_snd hnd' hpv] at this
    exact decide_eq_true this

/-- Claim C3: the solver's loop exits after a round exactly when every
page's absolute round-over-round difference is strictly below `0.001`;
the check is per page (a page whose difference is exactly `0.001` blocks
convergence), and a non-converged round continues the loop. -/
theorem iterate_termination_check (corpus : Corpus) (d : ℚ) (prev : Dist)
    (fuel : ℕ) (hnd : (keys corpus).Nodup)
    (hprev : prev.map Prod.fst = keys corpus) :
    (converged prev (pagerankRound corpus d prev) = true ↔
      ∀ p ∈ keys corpus,
        |lookupD prev p - lookupD (pagerankRound corpus d prev) p| <
          1 / 1000) ∧
    (converged prev (pagerankRound corpus d prev) = true →
      iterate_aux corpus d (fuel + 1) prev =
        some (pagerankRound corpus d prev)) ∧
    (converged prev (pagerankRound corpus d prev) = false →
      iterate_aux corpus d (fuel + 1) prev =
        iterate_aux corpus d fuel (pagerankRound corpus d prev)) := by
  refine ⟨converged_iff _ hnd hprev, ?_, ?_⟩
  · intro h
    rw [iterate_aux_step, if_pos h]
  · intro h
    rw [iterate_aux_step, if_neg (by simp [h])]

/-- Witness for C3 at the two-page corpus `a ↔ b` with the uniform
previous ranks. -/
theorem iterate_termination_check_witness :
    (converged [("a", (1:ℚ)/2), ("b", (1:ℚ)/2)]
        (pagerankRound [("a", ["b"]), ("b", ["a"])] (85/100)
          [("a", (1:ℚ)/2), ("b", (1:ℚ)/2)]) = true ↔
      ∀ p ∈ keys [("a", ["b"]), ("b", ["a"])],
        |lookupD [("a", (1:ℚ)/2), ("b", (1:ℚ)/2)] p -
          lookupD (pagerankRound [("a", ["b"]), ("b", ["a"])] (85/100)
            [("a", (1:ℚ)/2), ("b", (1:ℚ)/2)]) p| < 1 / 1000) ∧
    (converged [("a", (1:ℚ)/2), ("b", (1:ℚ)/2)]
        (pagerankRound [("a", ["b"]), ("b", ["a"])] (85/100)
          [("a", (1:ℚ)/2), ("b", (1:ℚ)/2)]) = true →
      iterate_aux [("a", ["b"]), ("b", ["a"])] (85/100) (5 + 1)
        [("a", (1:ℚ)/2), ("b", (1:ℚ)/2)] =
        some (pagerankRound [("a", ["b"]), ("b", ["a"])] (85/100)
          [("a", (1:ℚ)/2), ("b", (1:ℚ)/2)])) ∧
    (converged [("a", (1:ℚ)/2), ("b", (1:ℚ)/2)]
        (pagerankRound [("a", ["b"]), ("b", ["a"])] (85/100)
          [("a", (1:ℚ)/2), ("b", (1:ℚ)/2)]) = false →
      iterate_aux [("a", ["b"]), ("b", ["a"])] (85/100) (5 + 1)
        [("a", (1:ℚ)/2), ("b", (1:ℚ)/2)] =
        iterate_aux [("a", ["b"]), ("b", ["a"])] (85/100) 5
          (pagerankRound [("a", ["b"]), ("b", ["a"])] (85/100)
            [("a", (1:ℚ)/2), ("b", (1:ℚ)/2)])) :=
  iterate_termination_check [("a", ["b"]), ("b", ["a"])] (85/100)
    [("a", (1:ℚ)/2), ("b", (1:ℚ)/2)] 5 (by decide) (by decide)

theorem sum_keys_lookup (F : String → List String → ℚ) :
    ∀ corpus : Corpus, (keys corpus).Nodup →
      ((keys corpus).map fun q => F q ((corpus.lookup q).getD [])).sum =
        (corpus.map fun qe => F qe.1 qe.2).sum := by
  intro corpus
  induction corpus with
  | nil => intro _; simp [keys]
  | cons a t ih =>
    intro hnd
    obtain ⟨a1, a2⟩ := a
    simp only [keys, List.map_cons] at hnd ⊢
    simp only [List.sum_cons, List.lookup_cons_self, Option.getD_some]
    have htail : ∀ q ∈ t.map Prod.fst,
        F q ((((a1, a2) :: t).lookup q).getD []) =
          F q ((t.lookup q).getD []) := by
      intro q hq
      have hne : q ≠ a1 := by
        rintro rfl
        exact (List.nodup_cons.mp hnd).1 hq
      have hb : (q == a1) = false := by simpa using hne
      simp [List.lookup_cons, hb]
    rw [List.map_congr_left htail]
    have := ih (List.nodup_cons.mp hnd).2
    simp only [keys] at this
    rw [this]

theorem newRank_eq_spec {corpus : Corpus} (d : ℚ) (prev : Dist) (p : String)
    (hnd : (keys corpus).Nodup) :
    newRank corpus d prev p = specNewRank corpus d prev p := by
  unfold newRank specNewRank outSet
  rw [sum_keys_lookup (fun q links => if p ∈ pageLinks corpus links then
    lookupD prev q / ((pageLinks corpus links).length : ℚ) else 0) corpus hnd]

/-- Claim C2: inside every round of the solver, the new rank of a page `p`
is `(1-d)/k + d * Σ_{q : p ∈ outSet q} prev(q)/|outSet q|`, computed from
the previous round's dictionary only (the round is a pure function of
`prev`), where a page with an empty out-set is treated as linking to every
page. -/
theorem iterate_update_rule (corpus : Corpus) (d : ℚ) (prev : Dist)
    (p : String) (fuel : ℕ) (hnd : (keys corpus).Nodup)
    (hp : p ∈ keys corpus) :
    lookupD (pagerankRound corpus d prev) p =
      (1 - d) / ((keys corpus).length : ℚ) +
        d * ((keys corpus).map fun q =>
          if p ∈ outSet corpus q then
            lookupD prev q / ((outSet corpus q).length : ℚ)
          else 0).sum ∧
    iterate_aux corpus d (fuel + 1) prev =
      if converged prev (pagerankRound corpus d prev) then
        some (pagerankRound corpus d prev)
      else iterate_aux corpus d fuel (pagerankRound corpus d prev) := by
  constructor
  · rw [lookupD_pagerankRound d prev hp, newRank_eq_spec d prev p hnd]
    rfl
  · exact iterate_aux_step corpus d fuel prev

/-- Witness for C2 at the two-page corpus `a ↔ b`, page `a`. -/
theorem iterate_update_rule_witness :
    lookupD (pagerankRound [("a", ["b"]), ("b", ["a"])] (85/100)
        [("a", (1:ℚ)/2), ("b", (1:ℚ)/2)]) "a" =
      (1 - 85/100) / ((keys [("a", ["b"]), ("b", ["a"])]).length : ℚ) +
        (85/100) * ((keys [("a", ["b"]), ("b", ["a"])]).map fun q =>
          if "a" ∈ outSet [("a", ["b"]), ("b", ["a"])] q then
            lookupD [("a", (1:ℚ)/2), ("b", (1:ℚ)/2)] q /
              ((outSet [("a", ["b"]), ("b", ["a"])] q).length : ℚ)
          else 0).sum ∧
    iterate_aux [("a", ["b"]), ("b", ["a"])] (85/100) (5 + 1)
        [("a", (1:ℚ)/2), ("b", (1:ℚ)/2)] =
      if converged [("a", (1:ℚ)/2), ("b", (1:ℚ)/2)]
          (pagerankRound [("a", ["b"]), ("b", ["a"])] (85/100)
            [("a", (1:ℚ)/2), ("b", (1:ℚ)/2)]) then
        some (pagerankRound [("a", ["b"]), ("b", ["a"])] (85/100)
          [("a", (1:ℚ)/2), ("b", (1:ℚ)/2)])
      else iterate_aux [("a", ["b"]), ("b", ["a"])] (85/100) 5
        (pagerankRound [("a", ["b"]), ("b", ["a"])] (85/100)
          [("a", (1:ℚ)/2), ("b", (1:ℚ)/2)]) :=
  iterate_update_rule [("a", ["b"]), ("b", ["a"])] (85/100)
    [("a", (1:ℚ)/2), ("b", (1:ℚ)/2)] "a" 5 (by decide) (by decide)

/-- Claim C9: on the one-page corpus whose page has no outgoing links, the
solver returns rank `1` for that page, for every damping factor in
`(0,1)` (one round suffices). -/
theorem iterate_single_page (d : ℚ) (fuel : ℕ) (hd0 : 0 < d) (hd1 : d < 1)
    (hfuel : 1 ≤ fuel) :
    iterate_pagerank [("1", [])] d fuel = some [("1", 1)] := by
  obtain ⟨f, rfl⟩ : ∃ f, fuel = f + 1 :=
    ⟨fuel - 1, (Nat.succ_pred_eq_of_pos hfuel).symm⟩
  unfold iterate_pagerank
  rw [iterate_aux_step]
  have hround : pagerankRound [("1", [])] d (initRank [("1", [])]) =
      [("1", 1)] := by
    simp [pagerankRound, newRank, initRank, keys, pageLinks, lookupD]
  rw [hround]
  have hconv : converged (initRank [("1", [])]) [("1", 1)] = true := by
    simp [converged, initRank, keys, lookupD]
  rw [hconv]
  simp

/-- Witness for C9 at `d = 1/2`, fuel `1`. -/
theorem iterate_single_page_witness :
    iterate_pagerank [("1", [])] (1/2) 1 = some [("1", 1)] :=
  iterate_single_page (1/2) 1 (by norm_num) (by norm_num) (le_refl 1)

/-! ### Iterative solver: the distribution invariant -/

theorem pageLinks_nodup_subset {corpus : Corpus} (hwf : WellFormed corpus)
    {qe : String × List String} (hqe : qe ∈ corpus) :
    (pageLinks corpus qe.2).Nodup ∧ pageLinks corpus qe.2 ⊆ keys corpus := by
  unfold pageLinks
  by_cases h : qe.2.length = 0
  · simp only [h, if_pos]
    exact ⟨hwf.1, fun x hx => hx⟩
  · simp only [h, if_neg, ite_false]
    exact ⟨(hwf.2 qe hqe).1, (hwf.2 qe hqe).2⟩

theorem pageLinks_length_ne_zero {corpus : Corpus} (hne : corpus ≠ [])
    (links : List String) : ((pageLinks corpus links).length : ℚ) ≠ 0 := by
  unfold pageLinks
  by_cases h : links.length = 0
  · simp only [h, if_pos]
    have : keys corpus ≠ [] := keys_ne_nil hne
    have hpos : 0 < (keys corpus).length := List.length_pos.mpr this
    exact_mod_cast Nat.pos_iff_ne_zero.mp hpos
  · simp only [h, if_neg, ite_false]
    exact_mod_cast h

theorem keys_length_ne_zero {corpus : Corpus} (hne : corpus ≠ []) :
    ((keys corpus).length : ℚ) ≠ 0 := by
  have hpos : 0 < (keys corpus).length := List.length_pos.mpr (keys_ne_nil hne)
  exact_mod_cast Nat.pos_iff_ne_zero.mp hpos

theorem sum_newRank {corpus : Corpus} (d : ℚ) (prev : Dist)
    (hwf : WellFormed corpus) (hne : corpus ≠ []) :
    ((keys corpus).map fun p => newRank corpus d prev p).sum =
      (1 - d) + d * (corpus.map fun qe => lookupD prev qe.1).sum := by
  unfold newRank
  rw [sum_map_add, sum_map_const, List.sum_map_mul_left, sum_map_swap]
  have hinner : ∀ qe ∈ corpus,
      ((keys corpus).map fun p =>
        if p ∈ pageLinks corpus qe.2 then
          lookupD prev qe.1 / ((pageLinks corpus qe.2).length : ℚ)
        else 0).sum = lookupD prev qe.1 := by
    intro qe hqe
    rw [sum_if_mem _ _ _ hwf.1 (pageLinks_nodup_subset hwf hqe).1
      (pageLinks_nodup_subset hwf hqe).2, mul_comm,
      div_mul_cancel₀ _ (pageLinks_length_ne_zero hne qe.2)]
  rw [List.map_congr_left hinner, mul_comm ((keys corpus).length : ℚ),
    div_mul_cancel₀ _ (keys_length_ne_zero hne)]

theorem isDistOver_initRank {corpus : Corpus} (hne : corpus ≠ []) :
    IsDistOver corpus (initRank corpus) := by
  refine ⟨initRank_fst corpus, ?_, ?_⟩
  · intro pr hpr
    rcases List.mem_map.mp hpr with ⟨p, -, rfl⟩
    simpa using div_nonneg zero_le_one (Nat.cast_nonneg _)
  · unfold initRank
    rw [List.map_map]
    have hcomp : (Prod.snd ∘ fun page : String =>
        (page, 1 / ((keys corpus).length : ℚ))) =
        fun _ => 1 / ((keys corpus).length : ℚ) := rfl
    rw [hcomp, sum_map_const, mul_one_div, div_self (keys_length_ne_zero hne)]

theorem sum_lookupD_eq {corpus : Corpus} {prev : Dist}
    (hnd : (keys corpus).Nodup) (hfst : prev.map Prod.fst = keys corpus) :
    (corpus.map fun qe => lookupD prev qe.1).sum = (prev.map Prod.snd).sum := by
  have h1 : corpus.map (fun qe => lookupD prev qe.1) =
      (keys corpus).map (lookupD prev) := by
    rw [keys, List.map_map]
    rfl
  rw [h1, ← hfst, List.map_map]
  have hnd' : (prev.map Prod.fst).Nodup := hfst ▸ hnd
  exact congrArg List.sum
    (List.map_congr_left fun pr hpr => lookupD_eq_snd hnd' hpr)

theorem isDistOver_round {corpus : Corpus} {d : ℚ} {prev : Dist}
    (hwf : WellFormed corpus) (hne : corpus ≠ []) (hd0 : 0 ≤ d) (hd1 : d ≤ 1)
    (hprev : IsDistOver corpus prev) :
    IsDistOver corpus (pagerankRound corpus d prev) := by
  obtain ⟨hfst, hnn, hsum⟩ := hprev
  refine ⟨pagerankRound_fst corpus d prev, ?_, ?_⟩
  · intro pr hpr
    rcases List.mem_map.mp hpr with ⟨p, -, rfl⟩
    have h1 : (0:ℚ) ≤ (1 - d) / ((keys corpus).length : ℚ) :=
      div_nonneg (by linarith) (Nat.cast_nonneg _)
    have h2 : (0:ℚ) ≤ (corpus.map fun qe =>
        if p ∈ pageLinks corpus qe.2 then
          lookupD prev qe.1 / ((pageLinks corpus qe.2).length : ℚ)
        else 0).sum := by
      apply List.sum_nonneg
      intro x hx
      rcases List.mem_map.mp hx with ⟨qe, -, rfl⟩
      by_cases hm : p ∈ pageLinks corpus qe.2
      · simp only [hm, if_pos]
        exact div_nonneg (lookupD_nonneg hnn _) (Nat.cast_nonneg _)
      · simp [hm]
    simpa [newRank] using add_nonneg h1 (mul_nonneg hd0 h2)
  · unfold pagerankRound
    rw [List.map_map]
    have hcomp : (Prod.snd ∘ fun page =>
        (page, newRank corpus d prev page)) =
        fun page => newRank corpus d prev page := rfl
    rw [hcomp, sum_newRank d prev hwf hne, sum_lookupD_eq hwf.1 hfst, hsum]
    ring

theorem iterate_aux_isDist {corpus : Corpus} {d : ℚ}
    (hwf : WellFormed corpus) (hne : corpus ≠ []) (hd0 : 0 ≤ d)
    (hd1 : d ≤ 1) :
    ∀ (fuel : ℕ) (prev res : Dist), IsDistOver corpus prev →
      iterate_aux corpus d fuel prev = some res → IsDistOver corpus res := by
  intro fuel
  induction fuel with
  | zero =>
    intro prev res _ h
    simp [iterate_aux] at h
  | succ f ih =>
    intro prev res hprev h
    rw [iterate_aux_step] at h
    by_cases hc : converged prev (pagerankRound corpus d prev) = true
    · rw [if_pos hc] at h
      cases h
      exact isDistOver_round hwf hne hd0 hd1 hprev
    · rw [if_neg hc] at h
      exact ih _ res (isDistOver_round hwf hne hd0 hd1 hprev) h

/-- Claim C7: the §3 distribution invariant (one entry per key, non-negative
values, total mass 1, exactly over `ℚ`) holds for the uniform initial
state, is preserved by every round, and therefore holds for whatever
`iterate_pagerank` returns. -/
theorem iterate_pagerank_isDist (corpus : Corpus) (d : ℚ) (fuel : ℕ)
    (result : Dist) (hwf : WellFormed corpus) (hne : corpus ≠ [])
    (hd0 : 0 < d) (hd1 : d < 1)
    (h : iterate_pagerank corpus d fuel = some result) :
    IsDistOver corpus (initRank corpus) ∧
    (∀ prev, IsDistOver corpus prev →
      IsDistOver corpus (pagerankRound corpus d prev)) ∧
    IsDistOver corpus result := by
  refine ⟨isDistOver_initRank hne, fun prev hprev =>
    isDistOver_round hwf hne (le_of_lt hd0) (le_of_lt hd1) hprev, ?_⟩
  exact iterate_aux_isDist hwf hne (le_of_lt hd0) (le_of_lt hd1) fuel _ result
    (isDistOver_initRank hne) h

/-- Concrete evaluation: on the two-page corpus `a ↔ b` the solver is
already converged after one round from the uniform start. -/
theorem iterate_two_page_eval :
    iterate_pagerank [("a", ["b"]), ("b", ["a"])] (85/100) 1 =
      some [("a", (1:ℚ)/2), ("b", (1:ℚ)/2)] := by
  unfold iterate_pagerank
  rw [iterate_aux_step]
  have h1 : initRank [("a", ["b"]), ("b", ["a"])] =
      [("a", (1:ℚ)/2), ("b", (1:ℚ)/2)] := by
    simp [initRank, keys]
  rw [h1]
  have hround : pagerankRound [("a", ["b"]), ("b", ["a"])] (85/100)
      [("a", (1:ℚ)/2), ("b", (1:ℚ)/2)] = [("a", (1:ℚ)/2), ("b", (1:ℚ)/2)] := by
    simp [pagerankRound, newRank, keys, pageLinks, lookupD, List.lookup_cons]
    norm_num
  rw [hround]
  have hconv : converged [("a", (1:ℚ)/2), ("b", (1:ℚ)/2)]
      [("a", (1:ℚ)/2), ("b", (1:ℚ)/2)] = true := by
    simp [converged, lookupD, List.lookup_cons]
  rw [hconv]
  simp

/-- Witness for C7 at the two-page corpus `a ↔ b`, `d = 0.85`, fuel 1. -/
theorem iterate_pagerank_isDist_witness :
    IsDistOver [("a", ["b"]), ("b", ["a"])]
      (initRank [("a", ["b"]), ("b", ["a"])]) ∧
    (∀ prev, IsDistOver [("a", ["b"]), ("b", ["a"])] prev →
      IsDistOver [("a", ["b"]), ("b", ["a"])]
        (pagerankRound [("a", ["b"]), ("b", ["a"])] (85/100) prev)) ∧
    IsDistOver [("a", ["b"]), ("b", ["a"])] [("a", (1:ℚ)/2), ("b", (1:ℚ)/2)] :=
  iterate_pagerank_isDist [("a", ["b"]), ("b", ["a"])] (85/100) 1
    [("a", (1:ℚ)/2), ("b", (1:ℚ)/2)] (by decide) (by decide) (by norm_num)
    (by norm_num) iterate_two_page_eval

/-! ### Iterative solver: contraction and termination -/

theorem newRank_sub (corpus : Corpus) (d : ℚ) (u v : Dist) (p : String) :
    newRank corpus d u p - newRank corpus d v p =
      d * (corpus.map fun qe =>
        if p ∈ pageLinks corpus qe.2 then
          (lookupD u qe.1 - lookupD v qe.1) /
            ((pageLinks corpus qe.2).length : ℚ)
        else 0).sum := by
  unfold newRank
  have hpoint : ∀ qe ∈ corpus,
      (if p ∈ pageLinks corpus qe.2 then
        (lookupD u qe.1 - lookupD v qe.1) /
          ((pageLinks corpus qe.2).length : ℚ)
      else 0) =
      (if p ∈ pageLinks corpus qe.2 then
        lookupD u qe.1 / ((pageLinks corpus qe.2).length : ℚ) else 0) -
      (if p ∈ pageLinks corpus qe.2 then
        lookupD v qe.1 / ((pageLinks corpus qe.2).length : ℚ) else 0) := by
    intro qe _
    by_cases hm : p ∈ pageLinks corpus qe.2
    · simp [hm, sub_div]
    · simp [hm]
  rw [List.map_congr_left hpoint, sum_map_sub]
  ring

theorem abs_newRank_sub_le (corpus : Corpus) {d : ℚ} (hd0 : 0 ≤ d)
    (u v : Dist) (p : String) :
    |newRank corpus d u p - newRank corpus d v p| ≤
      d * (corpus.map fun qe =>
        if p ∈ pageLinks corpus qe.2 then
          |lookupD u qe.1 - lookupD v qe.1| /
            ((pageLinks corpus qe.2).length : ℚ)
        else 0).sum := by
  rw [newRank_sub, abs_mul, abs_of_nonneg hd0]
  apply mul_le_mul_of_nonneg_left _ hd0
  refine (abs_list_sum_le _).trans ?_
  rw [List.map_map]
  apply List.sum_le_sum
  intro qe _
  simp only [Function.comp_apply]
  by_cases hm : p ∈ pageLinks corpus qe.2
  · rw [if_pos hm, if_pos hm, abs_div, Nat.abs_cast]
  · simp [hm]

theorem l1dist_round_le {corpus : Corpus} {d : ℚ} (hwf : WellFormed corpus)
    (hne : corpus ≠ []) (hd0 : 0 ≤ d) (u v : Dist) :
    l1dist corpus (pagerankRound corpus d u) (pagerankRound corpus d v) ≤
      d * l1dist corpus u v := by
  unfold l1dist
  have hpt : ∀ p ∈ keys corpus,
      |lookupD (pagerankRound corpus d u) p -
        lookupD (pagerankRound corpus d v) p| =
      |newRank corpus d u p - newRank corpus d v p| := by
    intro p hp
    rw [lookupD_pagerankRound d u hp, lookupD_pagerankRound d v hp]
  rw [List.map_congr_left hpt]
  have hb : ∀ p ∈ keys corpus,
      |newRank corpus d u p - newRank corpus d v p| ≤
      d * (corpus.map fun qe =>
        if p ∈ pageLinks corpus qe.2 then
          |lookupD u qe.1 - lookupD v qe.1| /
            ((pageLinks corpus qe.2).length : ℚ)
        else 0).sum :=
    fun p _ => abs_newRank_sub_le corpus hd0 u v p
  refine (List.sum_le_sum hb).trans (le_of_eq ?_)
  have hinner : ∀ qe ∈ corpus,
      ((keys corpus).map fun p =>
        if p ∈ pageLinks corpus qe.2 then
          |lookupD u qe.1 - lookupD v qe.1| /
            ((pageLinks corpus qe.2).length : ℚ)
        else 0).sum = |lookupD u qe.1 - lookupD v qe.1| := by
    intro qe hqe
    rw [sum_if_mem _ _ _ hwf.1 (pageLinks_nodup_subset hwf hqe).1
      (pageLinks_nodup_subset hwf hqe).2, mul_comm,
      div_mul_cancel₀ _ (pageLinks_length_ne_zero hne qe.2)]
  rw [List.sum_map_mul_left, sum_map_swap, List.map_congr_left hinner]
  congr 1
  rw [keys, List.map_map]
  rfl

theorem l1dist_nonneg (corpus : Corpus) (u v : Dist) :
    0 ≤ l1dist corpus u v := by
  apply List.sum_nonneg
  intro x hx
  rcases List.mem_map.mp hx with ⟨p, -, rfl⟩
  exact abs_nonneg _

theorem iterate_fst_aux (corpus : Corpus) (d : ℚ) :
    ∀ t : ℕ,
      ((pagerankRound corpus d)^[t] (initRank corpus)).map Prod.fst =
        keys corpus
  | 0 => initRank_fst corpus
  | t + 1 => by
    rw [Function.iterate_succ_apply']
    exact pagerankRound_fst corpus d _

theorem l1dist_iterate_le {corpus : Corpus} {d : ℚ} (hwf : WellFormed corpus)
    (hne : corpus ≠ []) (hd0 : 0 ≤ d) :
    ∀ t : ℕ,
      l1dist corpus ((pagerankRound corpus d)^[t] (initRank corpus))
        ((pagerankRound corpus d)^[t + 1] (initRank corpus)) ≤
      d ^ t * l1dist corpus (initRank corpus)
        (pagerankRound corpus d (initRank corpus)) := by
  intro t
  induction t with
  | zero => simp
  | succ m ih =>
    have h1 := l1dist_round_le hwf hne hd0
      ((pagerankRound corpus d)^[m] (initRank corpus))
      ((pagerankRound corpus d)^[m + 1] (initRank corpus))
    rw [← Function.iterate_succ_apply' (pagerankRound corpus d) m,
      ← Function.iterate_succ_apply' (pagerankRound corpus d) (m + 1)] at h1
    refine h1.trans ?_
    refine (mul_le_mul_of_nonneg_left ih hd0).trans (le_of_eq ?_)
    ring

theorem converged_of_l1dist_lt {corpus : Corpus} {prev cur : Dist}
    (hnd : (keys corpus).Nodup) (hprev : prev.map Prod.fst = keys corpus)
    (h : l1dist corpus prev cur < 1 / 1000) : converged prev cur = true := by
  rw [converged_iff cur hnd hprev]
  intro p hp
  refine lt_of_le_of_lt ?_ h
  unfold l1dist
  exact List.single_le_sum
    (fun x hx => by
      rcases List.mem_map.mp hx with ⟨q, -, rfl⟩
      exact abs_nonneg _)
    _ (List.mem_map.mpr ⟨p, hp, rfl⟩)

theorem iterate_aux_some_of_converged (corpus : Corpus) (d : ℚ) :
    ∀ (t fuel : ℕ) (prev : Dist), t ≤ fuel →
      converged ((pagerankRound corpus d)^[t] prev)
        (pagerankRound corpus d ((pagerankRound corpus d)^[t] prev)) =
        true →
      ∃ res, iterate_aux corpus d (fuel + 1) prev = some res := by
  intro t
  induction t with
  | zero =>
    intro fuel prev _ hc
    rw [Function.iterate_zero_apply] at hc
    exact ⟨_, by rw [iterate_aux_step, if_pos hc]⟩
  | succ m ih =>
    intro fuel prev hle hc
    rcases fuel with _ | f
    · exact absurd hle (Nat.not_succ_le_zero m)
    · rw [iterate_aux_step]
      by_cases hcv : converged prev (pagerankRound corpus d prev) = true
      · exact ⟨_, if_pos hcv⟩
      · rw [if_neg hcv]
        apply ih f (pagerankRound corpus d prev) (Nat.succ_le_succ_iff.mp hle)
        rwa [← Function.iterate_succ_apply]

theorem exists_converged_round {corpus : Corpus} {d : ℚ}
    (hwf : WellFormed corpus) (hne : corpus ≠ []) (hd0 : 0 ≤ d)
    (hd1 : d < 1) :
    ∃ t, converged ((pagerankRound corpus d)^[t] (initRank corpus))
      (pagerankRound corpus d
        ((pagerankRound corpus d)^[t] (initRank corpus))) = true := by
  have hD0 := l1dist_nonneg corpus (initRank corpus)
    (pagerankRound corpus d (initRank corpus))
  obtain ⟨t, ht⟩ : ∃ t, d ^ t * l1dist corpus (initRank corpus)
      (pagerankRound corpus d (initRank corpus)) < 1 / 1000 := by
    rcases eq_or_lt_of_le hD0 with hz | hpos
    · exact ⟨0, by rw [← hz]; norm_num⟩
    · obtain ⟨n, hn⟩ := exists_pow_lt_of_lt_one
        (div_pos (by norm_num : (0:ℚ) < 1 / 1000) hpos) hd1
      exact ⟨n, (lt_div_iff hpos).mp hn⟩
  refine ⟨t, converged_of_l1dist_lt hwf.1 (iterate_fst_aux corpus d t) ?_⟩
  rw [← Function.iterate_succ_apply' (pagerankRound corpus d) t
    (initRank corpus)]
  exact lt_of_le_of_lt (l1dist_iterate_le hwf hne hd0 t) ht

/-- Claim C8: for a well-formed non-empty corpus and `d ∈ (0,1)`, the
solver's loop reaches a converged round after finitely many rounds (the
update contracts the L1 distance by the factor `d`), so some finite fuel
makes `iterate_pagerank` return a result. -/
theorem iterate_pagerank_terminates (corpus : Corpus) (d : ℚ)
    (hwf : WellFormed corpus) (hne : corpus ≠ []) (hd0 : 0 < d)
    (hd1 : d < 1) :
    ∃ fuel result, iterate_pagerank corpus d fuel = some result := by
  obtain ⟨t, hc⟩ := exists_converged_round hwf hne (le_of_lt hd0) hd1
  obtain ⟨res, hres⟩ := iterate_aux_some_of_converged corpus d t t
    (initRank corpus) (le_refl t) hc
  exact ⟨t + 1, res, hres⟩

/-- Witness for C8 at the two-page corpus `a ↔ b`, `d = 1/2`. -/
theorem iterate_pagerank_terminates_witness :
    ∃ fuel result,
      iterate_pagerank [("a", ["b"]), ("b", ["a"])] (1/2) fuel =
        some result :=
  iterate_pagerank_terminates [("a", ["b"]), ("b", ["a"])] (1/2)
    (by decide) (by decide) (by norm_num) (by norm_num)

end PageRank
